import Mathlib

/-!
Verification of the physical-memory catalog module (`memory_map.rs`):
a fixed-capacity (32-slot) append-only catalog of memory regions, its
normalization (sort) algorithm, the bounded views over the logical prefix,
and the conversion from the E820 firmware record format.

Machine integers (`u64`, `u32`) are modelled as `Nat`: no operation of the
module performs arithmetic that can overflow (`next_entry_index` is bounded
by 32, and region fields are only copied and compared).  Fallible
operations (indexing past the array bound, the `panic!` in the firmware
conversion) are modelled with `Option` / `Except`.
-/

namespace Bootinfo

/-- Modelled from the spec: the external physical-address collaborator is
out of scope; per §6 it "supplies construction from a raw 64-bit value and
addition with a length" and is treated as opaque.  We model it as the raw
64-bit value itself, with total construction. -/
abbrev PhysAddr := Nat

def PhysAddr.new (a : Nat) : PhysAddr := a

/-- The closed classification set (`MemoryRegionType` in the source). -/
inductive MemoryRegionType where
  | Usable
  | InUse
  | Reserved
  | AcpiReclaimable
  | AcpiNvs
  | BadMemory
  | Kernel
  | PageTable
  | Bootloader
  | FrameZero
deriving DecidableEq, Repr

/-- One contiguous physical span plus its classification
(`MemoryRegion` in the source). -/
structure MemoryRegion where
  start_addr : PhysAddr
  len : Nat
  region_type : MemoryRegionType
deriving DecidableEq, Repr

/-- `MemoryRegion::empty()`: the empty sentinel. -/
def MemoryRegion.empty : MemoryRegion :=
  { start_addr := PhysAddr.new 0, len := 0, region_type := MemoryRegionType.Reserved }

/-- `MemoryRegion::end_addr()`. -/
def MemoryRegion.end_addr (r : MemoryRegion) : PhysAddr :=
  r.start_addr + r.len

/-- The catalog (`MemoryMap` in the source): a 32-slot array of regions plus
the running count.  The fixed array `[MemoryRegion; 32]` is modelled as a
list whose length is 32 in every well-formed state. -/
structure MemoryMap where
  entries : List MemoryRegion
  next_entry_index : Nat
deriving DecidableEq, Repr

/-- `MemoryMap::new()`. -/
def MemoryMap.new : MemoryMap :=
  { entries := List.replicate 32 MemoryRegion.empty, next_entry_index := 0 }

/-- `MemoryMap::add_region`: `self.entries[self.next_entry_index()] = region;
self.next_entry_index += 1;`.  Indexing the length-32 array faults
(out-of-bounds panic) when the index is not below 32; the fault is
modelled as `none`. -/
def MemoryMap.add_region (m : MemoryMap) (region : MemoryRegion) : Option MemoryMap :=
  if m.next_entry_index < 32 then
    some { entries := m.entries.set m.next_entry_index region,
           next_entry_index := m.next_entry_index + 1 }
  else
    none

/-- The comparator closure passed to `sort_unstable_by` in
`MemoryMap::sort`. -/
def regionCmp (r1 r2 : MemoryRegion) : Ordering :=
  if r1.len = 0 then Ordering.gt
  else if r2.len = 0 then Ordering.lt
  else compare r1.start_addr r2.start_addr

/-- The "does not compare greater" relation induced by the comparator; an
element is placed before another exactly when this holds, which is how a
comparison sort consumes the comparator. -/
def regionLe (r1 r2 : MemoryRegion) : Prop :=
  regionCmp r1 r2 ≠ Ordering.gt

instance : DecidableRel regionLe := fun r1 r2 => by
  unfold regionLe
  infer_instance

/-- Model of `Iterator::position` (`self.entries.iter().position(|r| ...)`):
index of the first element satisfying the predicate. -/
def findPos (p : α → Bool) : List α → Option Nat
  | [] => none
  | a :: l => if p a then some 0 else (findPos p l).map (· + 1)

/-- `MemoryMap::sort`: reorder the entire 32-entry array with
`sort_unstable_by` under the comparator, then, `if let Some(first_zero_index)
= position(|r| r.len == 0)`, set `next_entry_index` to that index (and
leave it unchanged otherwise).  `sort_unstable_by` is modelled as a
comparison sort driven by the comparator (`List.insertionSort` over
`regionLe`); Rust leaves the relative order of elements the comparator
ties or orders inconsistently unspecified, and no claim depends on it. -/
def MemoryMap.sort (m : MemoryMap) : MemoryMap :=
  let sorted := List.insertionSort regionLe m.entries
  match findPos (fun r => r.len == 0) sorted with
  | some first_zero_index => { entries := sorted, next_entry_index := first_zero_index }
  | none => { entries := sorted, next_entry_index := m.next_entry_index }

/-- The logical sequence `entries[0 .. next_entry_index]` exposed by the
views. -/
def MemoryMap.view (m : MemoryMap) : List MemoryRegion :=
  m.entries.take m.next_entry_index

/-- `Deref for MemoryMap`: the slice `&self.entries[0..self.next_entry_index()]`.
Slicing faults (range out of bounds) when the end index exceeds the array
length; the fault is modelled as `none`. -/
def MemoryMap.deref (m : MemoryMap) : Option (List MemoryRegion) :=
  if m.next_entry_index ≤ m.entries.length then
    some (m.entries.take m.next_entry_index)
  else
    none

/-- `DerefMut for MemoryMap`: the same slice, mutably. -/
def MemoryMap.deref_mut (m : MemoryMap) : Option (List MemoryRegion) :=
  if m.next_entry_index ≤ m.entries.length then
    some (m.entries.take m.next_entry_index)
  else
    none

/-- Element mutation through the mutable view: `map[i] = r` performed on the
`DerefMut` slice.  It faults unless the slice itself is constructible and
`i` is inside it. -/
def MemoryMap.set_in_view (m : MemoryMap) (i : Nat) (r : MemoryRegion) : Option MemoryMap :=
  if i < m.next_entry_index ∧ m.next_entry_index ≤ m.entries.length then
    some { entries := m.entries.set i r, next_entry_index := m.next_entry_index }
  else
    none

/-- A sequence of `add_region` calls, failing as soon as one faults. -/
def MemoryMap.add_regions (m : MemoryMap) : List MemoryRegion → Option MemoryMap
  | [] => some m
  | r :: rs => match m.add_region r with
    | some m1 => m1.add_regions rs
    | none => none

/-- The raw firmware record (`E820MemoryRegion` in the source). -/
structure E820MemoryRegion where
  start_addr : Nat
  len : Nat
  region_type : Nat
  acpi_extended_attributes : Nat
deriving DecidableEq, Repr

/-- `From<E820MemoryRegion> for MemoryRegion`: the match over the type code;
`panic!("invalid region type {}", t)` is modelled as `Except.error` carrying
the formatted diagnostic. -/
def MemoryRegion.from_e820 (region : E820MemoryRegion) : Except String MemoryRegion :=
  match region.region_type with
  | 1 => Except.ok { start_addr := PhysAddr.new region.start_addr, len := region.len,
                     region_type := MemoryRegionType.Usable }
  | 2 => Except.ok { start_addr := PhysAddr.new region.start_addr, len := region.len,
                     region_type := MemoryRegionType.Reserved }
  | 3 => Except.ok { start_addr := PhysAddr.new region.start_addr, len := region.len,
                     region_type := MemoryRegionType.AcpiReclaimable }
  | 4 => Except.ok { start_addr := PhysAddr.new region.start_addr, len := region.len,
                     region_type := MemoryRegionType.AcpiNvs }
  | 5 => Except.ok { start_addr := PhysAddr.new region.start_addr, len := region.len,
                     region_type := MemoryRegionType.BadMemory }
  | t => Except.error ("invalid region type " ++ toString t)

/-- The representation invariant maintained by every operation: the backing
array has exactly 32 slots, the count is within bounds, and every slot at
or beyond the count holds an empty sentinel (`len = 0`). -/
def Inv (m : MemoryMap) : Prop :=
  m.entries.length = 32 ∧ m.next_entry_index ≤ 32 ∧
    ∀ r ∈ m.entries.drop m.next_entry_index, r.len = 0

/-- The catalog states reachable through the public interface: construction,
append under its capacity precondition, normalization, and element mutation
through the mutable view. -/
inductive Reachable : MemoryMap → Prop where
  | new : Reachable MemoryMap.new
  | add {m m1 : MemoryMap} {r : MemoryRegion} :
      Reachable m → m.add_region r = some m1 → Reachable m1
  | sort {m : MemoryMap} : Reachable m → Reachable m.sort
  | mutate {m m1 : MemoryMap} {i : Nat} {r : MemoryRegion} :
      Reachable m → m.set_in_view i r = some m1 → Reachable m1

/-- The ordering actually established by the sort: empty slots after all
non-empty slots, non-empty slots by ascending address. -/
def sortedRel (a b : MemoryRegion) : Prop :=
  (a.len = 0 ∧ b.len = 0) ∨ (a.len ≠ 0 ∧ b.len = 0) ∨
    (a.len ≠ 0 ∧ b.len ≠ 0 ∧ a.start_addr ≤ b.start_addr)

/-! ### Generic list lemmas -/

theorem findPos_cons {α : Type} (p : α → Bool) (x : α) (xs : List α) :
    findPos p (x :: xs) = if p x then some 0 else (findPos p xs).map (· + 1) := rfl

theorem findPos_none {α : Type} {p : α → Bool} :
    ∀ {l : List α}, findPos p l = none → ∀ a ∈ l, p a = false := by
  intro l
  induction l with
  | nil => intro _ a ha; cases ha
  | cons x xs ih =>
    intro h a ha
    cases hx : p x with
    | true => rw [findPos_cons, if_pos hx] at h; cases h
    | false =>
      rw [findPos_cons, if_neg (by simp [hx]), Option.map_eq_none'] at h
      rcases List.mem_cons.mp ha with rfl | ha2
      · exact hx
      · exact ih h a ha2

theorem findPos_some_spec {α : Type} {p : α → Bool} :
    ∀ {l : List α} {i : Nat}, findPos p l = some i →
      l.take i = l.takeWhile (fun a => !(p a)) ∧
        i = (l.takeWhile (fun a => !(p a))).length := by
  intro l
  induction l with
  | nil => intro i h; cases h
  | cons x xs ih =>
    intro i h
    cases hx : p x with
    | true =>
      rw [findPos_cons, if_pos hx] at h
      obtain rfl := Option.some.inj h
      refine ⟨?_, ?_⟩ <;> simp [List.takeWhile_cons, hx]
    | false =>
      rw [findPos_cons, if_neg (by simp [hx]), Option.map_eq_some'] at h
      obtain ⟨j, hj, rfl⟩ := h
      refine ⟨?_, ?_⟩
      · simp [List.takeWhile_cons, hx, List.take_succ_cons, (ih hj).1]
      · simp [List.takeWhile_cons, hx, ← (ih hj).2]

theorem findPos_append {α : Type} (p : α → Bool) {b : α} (hb : p b = true) :
    ∀ {N : List α}, (∀ a ∈ N, p a = false) → ∀ (M : List α),
      findPos p (N ++ b :: M) = some N.length := by
  intro N
  induction N with
  | nil => intro _ M; rw [List.nil_append, findPos_cons, if_pos hb]; rfl
  | cons x xs ih =>
    intro hN M
    have hx : p x = false := hN x (List.mem_cons_self x xs)
    rw [List.cons_append, findPos_cons, if_neg (by simp [hx])]
    rw [ih (fun a ha => hN a (List.mem_cons_of_mem x ha)) M]
    rfl

theorem mem_of_head_some {α : Type} : ∀ {l : List α} {a : α}, l.head? = some a → a ∈ l := by
  intro l a h
  cases l with
  | nil => cases h
  | cons x xs =>
    rw [List.head?_cons] at h
    obtain rfl := Option.some.inj h
    exact List.mem_cons_self x xs

theorem take_length_takeWhile {α : Type} (p : α → Bool) :
    ∀ l : List α, l.take (l.takeWhile p).length = l.takeWhile p := by
  intro l
  induction l with
  | nil => rfl
  | cons x xs ih =>
    cases hx : p x with
    | true => simp [List.takeWhile_cons, hx, List.take_succ_cons, ih]
    | false => simp [List.takeWhile_cons, hx]

theorem drop_length_takeWhile {α : Type} (p : α → Bool) (l : List α) :
    l.drop (l.takeWhile p).length = l.dropWhile p := by
  induction l with
  | nil => rfl
  | cons x xs ih =>
    cases hx : p x with
    | true => simp [List.takeWhile_cons, List.dropWhile_cons, hx, ih]
    | false => simp [List.takeWhile_cons, List.dropWhile_cons, hx]

theorem takeWhile_eq_self_of_all {α : Type} {p : α → Bool} :
    ∀ {l : List α}, (∀ a ∈ l, p a = true) → l.takeWhile p = l := by
  intro l
  induction l with
  | nil => intro _; rfl
  | cons x xs ih =>
    intro h
    simp [List.takeWhile_cons, h x (List.mem_cons_self x xs),
      ih fun a ha => h a (List.mem_cons_of_mem x ha)]

theorem take_append_self {α : Type} : ∀ (l1 l2 : List α), (l1 ++ l2).take l1.length = l1
  | [], _ => rfl
  | x :: xs, l2 => by simp [take_append_self xs l2]

theorem drop_append_self {α : Type} : ∀ (l1 l2 : List α), (l1 ++ l2).drop l1.length = l2
  | [], _ => rfl
  | x :: xs, l2 => by simp [drop_append_self xs l2]

theorem drop_set_of_lt {α : Type} (a : α) (l : List α) (i n : Nat) (h : i < n) :
    (l.set i a).drop n = l.drop n := by
  induction l generalizing i n with
  | nil => rfl
  | cons x xs ih =>
    cases i with
    | zero =>
      cases n with
      | zero => omega
      | succ n => rfl
    | succ i =>
      cases n with
      | zero => omega
      | succ n =>
        simp only [List.set_cons_succ, List.drop_succ_cons]
        exact ih i n (by omega)

theorem take_succ_set {α : Type} (a : α) :
    ∀ (l : List α) (n : Nat), n < l.length → (l.set n a).take (n + 1) = l.take n ++ [a] := by
  intro l
  induction l with
  | nil => intro n h; simp at h
  | cons x xs ih =>
    intro n h
    cases n with
    | zero => rfl
    | succ n =>
      simp only [List.set_cons_succ, List.take_succ_cons]
      rw [ih n (by simpa using Nat.lt_of_succ_lt_succ h)]
      rfl

theorem set_append_len {α : Type} (y : α) :
    ∀ (l1 : List α) (x : α) (l2 : List α), (l1 ++ x :: l2).set l1.length y = l1 ++ y :: l2
  | [], _, _ => rfl
  | z :: zs, x, l2 => by
    simp only [List.cons_append, List.length_cons, List.set_cons_succ]
    rw [set_append_len y zs x l2]

theorem filter_replicate_not {α : Type} (p : α → Bool) (a : α) (h : p a = false) :
    ∀ k : Nat, (List.replicate k a).filter p = []
  | 0 => rfl
  | k + 1 => by simp [List.replicate_succ, List.filter_cons, h, filter_replicate_not p a h k]

/-! ### Facts about the comparator and the order it establishes -/

theorem regionLe_sortedRel {a b : MemoryRegion} (h : regionLe a b) : sortedRel a b := by
  unfold regionLe regionCmp at h
  by_cases ha : a.len = 0
  · simp [ha] at h
  · by_cases hb : b.len = 0
    · exact Or.inr (Or.inl ⟨ha, hb⟩)
    · rw [if_neg ha, if_neg hb, Ne, Nat.compare_eq_gt] at h
      exact Or.inr (Or.inr ⟨ha, hb, Nat.le_of_not_lt h⟩)

theorem not_regionLe_sortedRel {a b : MemoryRegion} (h : ¬ regionLe a b) : sortedRel b a := by
  unfold regionLe regionCmp at h
  rw [not_ne_iff] at h
  by_cases ha : a.len = 0
  · by_cases hb : b.len = 0
    · exact Or.inl ⟨hb, ha⟩
    · exact Or.inr (Or.inl ⟨hb, ha⟩)
  · by_cases hb : b.len = 0
    · rw [if_neg ha, if_pos hb] at h
      cases h
    · rw [if_neg ha, if_neg hb, Nat.compare_eq_gt] at h
      exact Or.inr (Or.inr ⟨hb, ha, Nat.le_of_lt h⟩)

theorem sortedRel_trans {a b c : MemoryRegion} (h1 : sortedRel a b) (h2 : sortedRel b c) :
    sortedRel a c := by
  unfold sortedRel at h1 h2 ⊢
  rcases h1 with ⟨ha, hb⟩ | ⟨ha, hb⟩ | ⟨ha, hb, hab⟩ <;>
    rcases h2 with ⟨hb2, hc⟩ | ⟨hb2, hc⟩ | ⟨hb2, hc, hbc⟩ <;>
      first
        | exact absurd hb2 (hb ▸ fun hcon => hcon rfl)
        | exact absurd hb hb2
        | exact Or.inl ⟨ha, hc⟩
        | exact Or.inr (Or.inl ⟨ha, hc⟩)
        | exact Or.inr (Or.inr ⟨ha, hc, Nat.le_trans hab hbc⟩)

theorem regionLe_of_nonzero_zero {a b : MemoryRegion} (ha : a.len ≠ 0) (hb : b.len = 0) :
    regionLe a b := by
  unfold regionLe regionCmp
  rw [if_neg ha, if_pos hb]
  simp

theorem pairwise_orderedInsert (x : MemoryRegion) :
    ∀ {l : List MemoryRegion}, l.Pairwise sortedRel →
      (List.orderedInsert regionLe x l).Pairwise sortedRel := by
  intro l
  induction l with
  | nil => intro _; simp [List.orderedInsert]
  | cons y ys ih =>
    intro hp
    rw [List.orderedInsert]
    by_cases hxy : regionLe x y
    · rw [if_pos hxy]
      refine List.Pairwise.cons ?_ hp
      intro z hz
      rcases List.mem_cons.mp hz with rfl | hz2
      · exact regionLe_sortedRel hxy
      · exact sortedRel_trans (regionLe_sortedRel hxy) (List.rel_of_pairwise_cons hp hz2)
    · rw [if_neg hxy]
      refine List.Pairwise.cons ?_ (ih (List.Pairwise.of_cons hp))
      intro z hz
      rcases (List.mem_orderedInsert regionLe).mp hz with rfl | hz2
      · exact not_regionLe_sortedRel hxy
      · exact List.rel_of_pairwise_cons hp hz2

theorem pairwise_insertionSort :
    ∀ l : List MemoryRegion, (List.insertionSort regionLe l).Pairwise sortedRel := by
  intro l
  induction l with
  | nil => simp [List.insertionSort]
  | cons x xs ih => exact pairwise_orderedInsert x ih

theorem takeWhile_eq_filter {l : List MemoryRegion} (hp : l.Pairwise sortedRel) :
    l.takeWhile (fun r => !(r.len == 0)) = l.filter (fun r => !(r.len == 0)) := by
  induction l with
  | nil => rfl
  | cons x xs ih =>
    by_cases hx : x.len = 0
    · have hall : ∀ r ∈ xs, r.len = 0 := by
        intro r hr
        have h2 := List.rel_of_pairwise_cons hp hr
        unfold sortedRel at h2
        omega
      have hfil : xs.filter (fun r => !(r.len == 0)) = [] := by
        rw [List.filter_eq_nil_iff]
        intro a ha
        simp [hall a ha]
      simp [List.takeWhile_cons, List.filter_cons, hx, hfil]
    · simp [List.takeWhile_cons, List.filter_cons, hx, ih (List.Pairwise.of_cons hp)]

theorem dropWhile_all_zero {l : List MemoryRegion} (hp : l.Pairwise sortedRel) :
    ∀ r ∈ l.dropWhile (fun r => !(r.len == 0)), r.len = 0 := by
  induction l with
  | nil => intro r hr; cases hr
  | cons x xs ih =>
    intro r hr
    by_cases hx : x.len = 0
    · rw [List.dropWhile_cons, if_neg (by simp [hx])] at hr
      rcases List.mem_cons.mp hr with rfl | hr2
      · exact hx
      · have h2 := List.rel_of_pairwise_cons hp hr2
        unfold sortedRel at h2
        rcases h2 with ⟨ha, hb⟩ | ⟨ha, hb⟩ | ⟨ha, hb, hab⟩
        · exact hb
        · exact hb
        · exact absurd hx ha
    · rw [List.dropWhile_cons, if_pos (by simp [hx])] at hr
      exact ih (List.Pairwise.of_cons hp) r hr

theorem pairwise_regionLe_of_nonzero {l : List MemoryRegion}
    (hp : l.Pairwise sortedRel) (hz : ∀ r ∈ l, r.len ≠ 0) : l.Pairwise regionLe := by
  refine List.Pairwise.imp_of_mem ?_ hp
  intro a b ha hb hr
  rcases hr with ⟨h1, h2⟩ | ⟨h1, h2⟩ | ⟨h1, h2, h3⟩
  · exact absurd h1 (hz a ha)
  · exact absurd h2 (hz b hb)
  · unfold regionLe regionCmp
    rw [if_neg (hz a ha), if_neg (hz b hb), Ne, Nat.compare_eq_gt]
    exact Nat.not_lt.mpr h3

theorem orderedInsert_eq_cons {x : MemoryRegion} :
    ∀ {l : List MemoryRegion}, (∀ y, l.head? = some y → regionLe x y) →
      List.orderedInsert regionLe x l = x :: l := by
  intro l h
  cases l with
  | nil => rfl
  | cons y ys => rw [List.orderedInsert, if_pos (h y rfl)]

theorem insertionSort_append_zeros :
    ∀ {N : List MemoryRegion}, (∀ a ∈ N, a.len ≠ 0) → N.Pairwise regionLe →
      ∀ {M : List MemoryRegion}, (∀ a ∈ M, a.len = 0) →
        List.insertionSort regionLe (N ++ M) = N ++ List.insertionSort regionLe M := by
  intro N
  induction N with
  | nil => intro _ _ M _; simp
  | cons x xs ih =>
    intro hN hp M hM
    have hx : x.len ≠ 0 := hN x (List.mem_cons_self x xs)
    rw [List.cons_append]
    rw [show List.insertionSort regionLe (x :: (xs ++ M)) =
        List.orderedInsert regionLe x (List.insertionSort regionLe (xs ++ M)) from rfl]
    rw [ih (fun a ha => hN a (List.mem_cons_of_mem x ha)) (List.Pairwise.of_cons hp) hM]
    rw [orderedInsert_eq_cons]
    · rw [List.cons_append]
    · intro y hy
      cases xs with
      | cons z zs =>
        rw [List.cons_append, List.head?_cons] at hy
        obtain rfl := Option.some.inj hy
        exact List.rel_of_pairwise_cons hp (List.mem_cons_self z zs)
      | nil =>
        rw [List.nil_append] at hy
        have hymem : y ∈ List.insertionSort regionLe M := mem_of_head_some hy
        have hy0 : y.len = 0 :=
          hM y ((List.perm_insertionSort regionLe M).mem_iff.mp hymem)
        exact regionLe_of_nonzero_zero hx hy0

/-! ### Structure of `MemoryMap.sort` -/

theorem sort_def (m : MemoryMap) :
    m.sort = match findPos (fun r => r.len == 0) (List.insertionSort regionLe m.entries) with
      | some i => { entries := List.insertionSort regionLe m.entries, next_entry_index := i }
      | none => { entries := List.insertionSort regionLe m.entries,
                  next_entry_index := m.next_entry_index } := rfl

theorem sort_entries (m : MemoryMap) :
    m.sort.entries = List.insertionSort regionLe m.entries := by
  rw [sort_def]
  cases h : findPos (fun r => r.len == 0) (List.insertionSort regionLe m.entries) <;> rfl

theorem sort_entries_perm (m : MemoryMap) : List.Perm m.sort.entries m.entries := by
  rw [sort_entries]
  exact List.perm_insertionSort regionLe m.entries

theorem mem_entries_nonzero_of_findPos_none {l : List MemoryRegion}
    (h : findPos (fun r => r.len == 0) (List.insertionSort regionLe l) = none) :
    ∀ r ∈ l, r.len ≠ 0 := by
  intro r hr
  have hmem : r ∈ List.insertionSort regionLe l :=
    (List.perm_insertionSort regionLe l).mem_iff.mpr hr
  have h2 := findPos_none h r hmem
  simpa using h2

/-- When the state cannot be "no empty slot but a short logical prefix",
the view after normalization is the non-empty prefix of the sorted array. -/
theorem sort_view {m : MemoryMap}
    (hfull : (∀ r ∈ m.entries, r.len ≠ 0) → m.next_entry_index = m.entries.length) :
    m.sort.view =
      (List.insertionSort regionLe m.entries).takeWhile (fun r => !(r.len == 0)) := by
  rw [MemoryMap.view, sort_def]
  cases h : findPos (fun r => r.len == 0) (List.insertionSort regionLe m.entries) with
  | some i =>
    simpa using (findPos_some_spec h).1
  | none =>
    have hnz := mem_entries_nonzero_of_findPos_none h
    have hlen := hfull hnz
    have hslen : (List.insertionSort regionLe m.entries).length = m.entries.length :=
      (List.perm_insertionSort regionLe m.entries).length_eq
    have hall : ∀ r ∈ List.insertionSort regionLe m.entries, (!(r.len == 0)) = true := by
      intro r hr
      have h2 := findPos_none h r hr
      simpa using h2
    simp only []
    rw [takeWhile_eq_self_of_all hall, hlen, ← hslen, List.take_length]

/-- The view of the normalized catalog: a permutation of the non-empty
entries, sorted by ascending start address. -/
theorem sort_view_spec {m : MemoryMap}
    (hfull : (∀ r ∈ m.entries, r.len ≠ 0) → m.next_entry_index = m.entries.length) :
    List.Perm m.sort.view (m.entries.filter (fun r => !(r.len == 0))) ∧
      m.sort.view.Pairwise (fun a b => a.start_addr ≤ b.start_addr) := by
  have hview := sort_view hfull
  have hsp := pairwise_insertionSort m.entries
  constructor
  · rw [hview, takeWhile_eq_filter hsp]
    exact (List.perm_insertionSort regionLe m.entries).filter (fun r => !(r.len == 0))
  · rw [hview]
    have hpw : ((List.insertionSort regionLe m.entries).takeWhile
        (fun r => !(r.len == 0))).Pairwise sortedRel :=
      hsp.sublist (List.takeWhile_sublist (fun r : MemoryRegion => !(r.len == 0)))
    refine List.Pairwise.imp_of_mem ?_ hpw
    intro a b ha hb hr
    have ha2 : a.len ≠ 0 := by
      have := List.mem_takeWhile_imp ha
      simpa using this
    have hb2 : b.len ≠ 0 := by
      have := List.mem_takeWhile_imp hb
      simpa using this
    rcases hr with ⟨h1, h2⟩ | ⟨h1, h2⟩ | ⟨h1, h2, h3⟩
    · exact absurd h1 ha2
    · exact absurd h2 hb2
    · exact h3

/-! ### The representation invariant -/

theorem inv_new : Inv MemoryMap.new := by
  refine ⟨by simp [MemoryMap.new], by simp [MemoryMap.new], ?_⟩
  intro r hr
  simp only [MemoryMap.new, List.drop_zero] at hr
  rw [List.eq_of_mem_replicate hr]
  rfl

theorem inv_add {m m1 : MemoryMap} {r : MemoryRegion} (h : Inv m)
    (hadd : m.add_region r = some m1) : Inv m1 := by
  obtain ⟨hlen, hn, hz⟩ := h
  unfold MemoryMap.add_region at hadd
  by_cases hlt : m.next_entry_index < 32
  · rw [if_pos hlt] at hadd
    obtain rfl := Option.some.inj hadd
    refine ⟨by simpa using hlen, by exact Nat.succ_le_of_lt hlt, ?_⟩
    intro s hs
    simp only [] at hs
    rw [drop_set_of_lt r m.entries m.next_entry_index (m.next_entry_index + 1)
      (Nat.lt_succ_self _)] at hs
    have hsub : m.entries.drop (m.next_entry_index + 1) ⊆
        m.entries.drop m.next_entry_index := by
      rw [← List.drop_drop]
      exact List.drop_subset 1 (m.entries.drop m.next_entry_index)
    exact hz s (hsub hs)
  · rw [if_neg hlt] at hadd
    cases hadd

theorem inv_set {m m1 : MemoryMap} {i : Nat} {r : MemoryRegion} (h : Inv m)
    (hset : m.set_in_view i r = some m1) : Inv m1 := by
  obtain ⟨hlen, hn, hz⟩ := h
  unfold MemoryMap.set_in_view at hset
  by_cases hc : i < m.next_entry_index ∧ m.next_entry_index ≤ m.entries.length
  · rw [if_pos hc] at hset
    obtain rfl := Option.some.inj hset
    refine ⟨by simpa using hlen, hn, ?_⟩
    intro s hs
    simp only [] at hs
    rw [drop_set_of_lt r m.entries i m.next_entry_index hc.1] at hs
    exact hz s hs
  · rw [if_neg hc] at hset
    cases hset

theorem inv_sort {m : MemoryMap} (h : Inv m) : Inv m.sort := by
  obtain ⟨hlen, hn, hz⟩ := h
  have hslen : (List.insertionSort regionLe m.entries).length = m.entries.length :=
    (List.perm_insertionSort regionLe m.entries).length_eq
  have hsp := pairwise_insertionSort m.entries
  rw [sort_def]
  cases hf : findPos (fun r => r.len == 0) (List.insertionSort regionLe m.entries) with
  | some i =>
    obtain ⟨htake, hilen⟩ := findPos_some_spec hf
    refine ⟨?_, ?_, ?_⟩
    · show (List.insertionSort regionLe m.entries).length = 32
      rw [hslen, hlen]
    · show i ≤ 32
      have hle : ((List.insertionSort regionLe m.entries).takeWhile
          (fun a => !(a.len == 0))).length ≤ (List.insertionSort regionLe m.entries).length :=
        (List.takeWhile_sublist (fun a : MemoryRegion => !(a.len == 0))).length_le
      omega
    · show ∀ s ∈ (List.insertionSort regionLe m.entries).drop i, s.len = 0
      intro s hs
      rw [hilen, drop_length_takeWhile] at hs
      exact dropWhile_all_zero hsp s hs
  | none =>
    refine ⟨?_, ?_, ?_⟩
    · show (List.insertionSort regionLe m.entries).length = 32
      rw [hslen, hlen]
    · show m.next_entry_index ≤ 32
      exact hn
    · show ∀ s ∈ (List.insertionSort regionLe m.entries).drop m.next_entry_index, s.len = 0
      intro s hs
      have hnz := mem_entries_nonzero_of_findPos_none hf
      have hge : m.entries.length ≤ m.next_entry_index := by
        by_contra hlt
        have hne : m.entries.drop m.next_entry_index ≠ [] := by
          intro heq
          have h2 := List.length_drop m.next_entry_index m.entries
          rw [heq] at h2
          simp at h2
          omega
        obtain ⟨d, hd⟩ := List.exists_mem_of_ne_nil _ hne
        exact hnz d (List.drop_subset _ _ hd) (hz d hd)
      have hdrop : (List.insertionSort regionLe m.entries).drop m.next_entry_index = [] := by
        apply List.drop_eq_nil_of_le
        omega
      rw [hdrop] at hs
      cases hs

/-! ### Further helpers -/

theorem findPos_some_mem {α : Type} {p : α → Bool} :
    ∀ {l : List α} {i : Nat}, findPos p l = some i → ∃ a ∈ l, p a = true := by
  intro l
  induction l with
  | nil => intro i h; cases h
  | cons x xs ih =>
    intro i h
    cases hx : p x with
    | true => exact ⟨x, List.mem_cons_self x xs, hx⟩
    | false =>
      rw [findPos_cons, if_neg (by simp [hx]), Option.map_eq_some'] at h
      obtain ⟨j, hj, rfl⟩ := h
      obtain ⟨a, ha, hpa⟩ := ih hj
      exact ⟨a, List.mem_cons_of_mem x ha, hpa⟩

theorem sort_mk (E : List MemoryRegion) (n : Nat) :
    (MemoryMap.mk E n).sort =
      match findPos (fun r => r.len == 0) (List.insertionSort regionLe E) with
      | some i => MemoryMap.mk (List.insertionSort regionLe E) i
      | none => MemoryMap.mk (List.insertionSort regionLe E) n := rfl

theorem filter_pos_eq_filter_nonzero (l : List MemoryRegion) :
    l.filter (fun r => decide (0 < r.len)) = l.filter (fun r => !(r.len == 0)) := by
  induction l with
  | nil => rfl
  | cons x xs ih =>
    cases hx : x.len with
    | zero => simp [List.filter_cons, hx, ih]
    | succ k => simp [List.filter_cons, hx, ih]

theorem add_region_some (m : MemoryMap) (r : MemoryRegion) (h : m.next_entry_index < 32) :
    m.add_region r = some (MemoryMap.mk (m.entries.set m.next_entry_index r)
      (m.next_entry_index + 1)) := by
  unfold MemoryMap.add_region
  rw [if_pos h]

theorem add_regions_spec :
    ∀ (rs done : List MemoryRegion), done.length + rs.length ≤ 32 →
      MemoryMap.add_regions
        (MemoryMap.mk (done ++ List.replicate (32 - done.length) MemoryRegion.empty)
          done.length) rs =
      some (MemoryMap.mk ((done ++ rs) ++
          List.replicate (32 - (done.length + rs.length)) MemoryRegion.empty)
        (done.length + rs.length)) := by
  intro rs
  induction rs with
  | nil =>
    intro done h
    simp [MemoryMap.add_regions]
  | cons r rs ih =>
    intro done h
    have hlt : done.length < 32 := by
      simp only [List.length_cons] at h
      omega
    have hrep : 32 - done.length = (32 - (done.length + 1)) + 1 := by omega
    simp only [MemoryMap.add_regions]
    rw [add_region_some]
    · simp only []
      rw [hrep, List.replicate_succ, set_append_len]
      have happ := ih (done ++ [r]) (by simp only [List.length_append, List.length_cons,
        List.length_nil, List.length_cons] at h ⊢; omega)
      simpa [Nat.add_assoc, Nat.add_comm, Nat.add_left_comm] using happ
    · exact hlt

theorem add_regions_new {rs : List MemoryRegion} (h : rs.length ≤ 32) :
    MemoryMap.add_regions MemoryMap.new rs =
      some (MemoryMap.mk (rs ++ List.replicate (32 - rs.length) MemoryRegion.empty)
        rs.length) := by
  have h2 := add_regions_spec rs [] (by simpa using h)
  simpa [MemoryMap.new] using h2

theorem deref_eq_view {m : MemoryMap} (h : m.next_entry_index ≤ m.entries.length) :
    m.deref = some m.view := by
  unfold MemoryMap.deref MemoryMap.view
  rw [if_pos h]

theorem deref_mut_eq_view {m : MemoryMap} (h : m.next_entry_index ≤ m.entries.length) :
    m.deref_mut = some m.view := by
  unfold MemoryMap.deref_mut MemoryMap.view
  rw [if_pos h]

theorem sort_next_le {m : MemoryMap} (hn : m.next_entry_index ≤ m.entries.length) :
    m.sort.next_entry_index ≤ m.sort.entries.length := by
  have hslen : (List.insertionSort regionLe m.entries).length = m.entries.length :=
    (List.perm_insertionSort regionLe m.entries).length_eq
  rw [sort_def]
  cases hf : findPos (fun r => r.len == 0) (List.insertionSort regionLe m.entries) with
  | some i =>
    show i ≤ (List.insertionSort regionLe m.entries).length
    have hi := (findPos_some_spec hf).2
    have hle : ((List.insertionSort regionLe m.entries).takeWhile
        (fun a => !(a.len == 0))).length ≤ (List.insertionSort regionLe m.entries).length :=
      (List.takeWhile_sublist (fun a : MemoryRegion => !(a.len == 0))).length_le
    omega
  | none =>
    show m.next_entry_index ≤ (List.insertionSort regionLe m.entries).length
    omega

/-! ### Claim theorems -/

/-- C1: for every catalog obtained by appending at most 32 regions to a fresh
catalog and then normalizing, the view is exactly the appended regions with
`len > 0` (as a multiset), sorted in ascending order of `start_addr`, and its
length is the number of such regions. -/
theorem normalize_view_exact (rs : List MemoryRegion) (h : rs.length ≤ 32) :
    ∃ m : MemoryMap, MemoryMap.add_regions MemoryMap.new rs = some m ∧
      List.Perm m.sort.view (rs.filter (fun r => decide (0 < r.len))) ∧
      m.sort.view.Pairwise (fun a b => a.start_addr ≤ b.start_addr) ∧
      m.sort.view.length = (rs.filter (fun r => decide (0 < r.len))).length := by
  refine ⟨MemoryMap.mk (rs ++ List.replicate (32 - rs.length) MemoryRegion.empty) rs.length,
    add_regions_new h, ?_⟩
  have hfull : (∀ r ∈ (MemoryMap.mk (rs ++ List.replicate (32 - rs.length)
      MemoryRegion.empty) rs.length).entries, r.len ≠ 0) →
      (MemoryMap.mk (rs ++ List.replicate (32 - rs.length) MemoryRegion.empty)
        rs.length).next_entry_index =
      (MemoryMap.mk (rs ++ List.replicate (32 - rs.length) MemoryRegion.empty)
        rs.length).entries.length := by
    intro hall
    show rs.length = (rs ++ List.replicate (32 - rs.length) MemoryRegion.empty).length
    by_cases h0 : 32 - rs.length = 0
    · rw [List.length_append, List.length_replicate]
      omega
    · exfalso
      have hmem : MemoryRegion.empty ∈ List.replicate (32 - rs.length) MemoryRegion.empty :=
        List.mem_replicate.mpr ⟨h0, rfl⟩
      exact hall MemoryRegion.empty (List.mem_append_right rs hmem) rfl
  obtain ⟨hperm, hpw⟩ := sort_view_spec hfull
  have hfil : (rs ++ List.replicate (32 - rs.length) MemoryRegion.empty).filter
      (fun r => !(r.len == 0)) = rs.filter (fun r => !(r.len == 0)) := by
    rw [List.filter_append, filter_replicate_not (fun r : MemoryRegion => !(r.len == 0))
      MemoryRegion.empty rfl (32 - rs.length), List.append_nil]
  refine ⟨?_, hpw, ?_⟩
  · rw [filter_pos_eq_filter_nonzero, ← hfil]
    exact hperm
  · rw [filter_pos_eq_filter_nonzero, ← hfil]
    exact hperm.length_eq

/-- Witness for C1 at the spec scenario `[(50,10,Reserved), (0,20,Usable)]`. -/
theorem normalize_view_exact_witness :
    ([MemoryRegion.mk 50 10 MemoryRegionType.Reserved,
      MemoryRegion.mk 0 20 MemoryRegionType.Usable] : List MemoryRegion).length ≤ 32 ∧
    (∃ m : MemoryMap, MemoryMap.add_regions MemoryMap.new
        [MemoryRegion.mk 50 10 MemoryRegionType.Reserved,
         MemoryRegion.mk 0 20 MemoryRegionType.Usable] = some m ∧
      List.Perm m.sort.view (([MemoryRegion.mk 50 10 MemoryRegionType.Reserved,
        MemoryRegion.mk 0 20 MemoryRegionType.Usable] : List MemoryRegion).filter
          (fun r => decide (0 < r.len))) ∧
      m.sort.view.Pairwise (fun a b => a.start_addr ≤ b.start_addr) ∧
      m.sort.view.length = (([MemoryRegion.mk 50 10 MemoryRegionType.Reserved,
        MemoryRegion.mk 0 20 MemoryRegionType.Usable] : List MemoryRegion).filter
          (fun r => decide (0 < r.len))).length) :=
  ⟨by decide, normalize_view_exact
    [MemoryRegion.mk 50 10 MemoryRegionType.Reserved,
     MemoryRegion.mk 0 20 MemoryRegionType.Usable] (by decide)⟩

/-- C6: normalization is idempotent on the view, for every catalog state. -/
theorem sort_idempotent_view (m : MemoryMap) : m.sort.sort.view = m.sort.view := by
  obtain ⟨E, n⟩ := m
  have hsp := pairwise_insertionSort E
  cases hf : findPos (fun r => r.len == 0) (List.insertionSort regionLe E) with
  | some i =>
    have hm1 : (MemoryMap.mk E n).sort = MemoryMap.mk (List.insertionSort regionLe E) i := by
      rw [sort_mk, hf]
    obtain ⟨htake, hilen⟩ := findPos_some_spec hf
    have hTnz : ∀ a2 ∈ (List.insertionSort regionLe E).takeWhile (fun r => !(r.len == 0)),
        a2.len ≠ 0 := by
      intro a2 ha2
      have h2 := List.mem_takeWhile_imp ha2
      simpa using h2
    have hTfalse : ∀ a2 ∈ (List.insertionSort regionLe E).takeWhile (fun r => !(r.len == 0)),
        (a2.len == 0) = false := by
      intro a2 ha2
      simpa using hTnz a2 ha2
    have hTle : ((List.insertionSort regionLe E).takeWhile
        (fun r => !(r.len == 0))).Pairwise regionLe :=
      pairwise_regionLe_of_nonzero
        (hsp.sublist (List.takeWhile_sublist (fun r : MemoryRegion => !(r.len == 0)))) hTnz
    have hD0 : ∀ a2 ∈ (List.insertionSort regionLe E).dropWhile (fun r => !(r.len == 0)),
        a2.len = 0 := dropWhile_all_zero hsp
    have hS2 : List.insertionSort regionLe (List.insertionSort regionLe E) =
        (List.insertionSort regionLe E).takeWhile (fun r => !(r.len == 0)) ++
          List.insertionSort regionLe
            ((List.insertionSort regionLe E).dropWhile (fun r => !(r.len == 0))) := by
      conv_lhs => rw [← List.takeWhile_append_dropWhile (fun r : MemoryRegion => !(r.len == 0))
        (List.insertionSort regionLe E)]
      exact insertionSort_append_zeros hTnz hTle hD0
    obtain ⟨z, hzmem, hz0⟩ := findPos_some_mem hf
    have hzD : z ∈ (List.insertionSort regionLe E).dropWhile (fun r => !(r.len == 0)) := by
      rw [← List.takeWhile_append_dropWhile (fun r : MemoryRegion => !(r.len == 0))
        (List.insertionSort regionLe E)] at hzmem
      rcases List.mem_append.mp hzmem with hT | hD
      · exfalso
        rw [hTfalse z hT] at hz0
        cases hz0
      · exact hD
    cases hD2 : List.insertionSort regionLe
        ((List.insertionSort regionLe E).dropWhile (fun r => !(r.len == 0))) with
    | nil =>
      exfalso
      have hp := List.perm_insertionSort regionLe
        ((List.insertionSort regionLe E).dropWhile (fun r => !(r.len == 0)))
      rw [hD2] at hp
      have hDnil : (List.insertionSort regionLe E).dropWhile (fun r => !(r.len == 0)) = [] := by
        have hlen0 := hp.length_eq
        rw [List.length_nil] at hlen0
        exact List.length_eq_zero.mp hlen0.symm
      rw [hDnil] at hzD
      cases hzD
    | cons d ds =>
      have hd0 : d.len = 0 := by
        have hdmem : d ∈ List.insertionSort regionLe
            ((List.insertionSort regionLe E).dropWhile (fun r => !(r.len == 0))) := by
          rw [hD2]
          exact List.mem_cons_self d ds
        exact hD0 d ((List.perm_insertionSort regionLe _).mem_iff.mp hdmem)
      have hdb : (d.len == 0) = true := by simp [hd0]
      have h2 : (MemoryMap.mk (List.insertionSort regionLe E) i).sort =
          MemoryMap.mk ((List.insertionSort regionLe E).takeWhile
              (fun r => !(r.len == 0)) ++ d :: ds)
            ((List.insertionSort regionLe E).takeWhile (fun r => !(r.len == 0))).length := by
        rw [sort_mk, hS2, hD2,
          findPos_append (fun r : MemoryRegion => r.len == 0) hdb hTfalse ds]
      rw [hm1, h2]
      show ((List.insertionSort regionLe E).takeWhile (fun r => !(r.len == 0)) ++
          d :: ds).take
          ((List.insertionSort regionLe E).takeWhile (fun r => !(r.len == 0))).length =
        (List.insertionSort regionLe E).take i
      rw [take_append_self, htake]
  | none =>
    have hSnz : ∀ a2 ∈ List.insertionSort regionLe E, a2.len ≠ 0 := by
      intro a2 ha2
      have h2 := findPos_none hf a2 ha2
      simpa using h2
    have hSle := pairwise_regionLe_of_nonzero hsp hSnz
    have hidem : List.insertionSort regionLe (List.insertionSort regionLe E) =
        List.insertionSort regionLe E := List.Sorted.insertionSort_eq hSle
    have hm1 : (MemoryMap.mk E n).sort = MemoryMap.mk (List.insertionSort regionLe E) n := by
      rw [sort_mk, hf]
    have h2 : (MemoryMap.mk (List.insertionSort regionLe E) n).sort =
        MemoryMap.mk (List.insertionSort regionLe E) n := by
      rw [sort_mk, hidem, hf]
    rw [hm1, h2]

/-- C2 counterexample: a state satisfying the §3 invariants
(`next_entry_index ≤ 32`, 32 slots) in which no slot has `len == 0`; after
normalization `next_entry_index` is left at 0, not set to 32 as the claim
requires. -/
theorem sort_next_unchanged_cex :
    (MemoryMap.mk (List.replicate 32 (MemoryRegion.mk 0 1 MemoryRegionType.Usable))
      0).next_entry_index ≤ 32 ∧
    (MemoryMap.mk (List.replicate 32 (MemoryRegion.mk 0 1 MemoryRegionType.Usable))
      0).entries.length = 32 ∧
    findPos (fun r => r.len == 0)
      (MemoryMap.mk (List.replicate 32 (MemoryRegion.mk 0 1 MemoryRegionType.Usable))
        0).sort.entries = none ∧
    (MemoryMap.mk (List.replicate 32 (MemoryRegion.mk 0 1 MemoryRegionType.Usable))
      0).sort.next_entry_index = 0 ∧
    ¬ (MemoryMap.mk (List.replicate 32 (MemoryRegion.mk 0 1 MemoryRegionType.Usable))
      0).sort.next_entry_index = 32 := by
  decide

/-- C2 (amended): for every catalog state satisfying the §3 invariants
together with the maintained invariant that every slot at or beyond
`next_entry_index` is empty, after the reordering step `next_entry_index`
equals the index of the first slot with `len == 0` in the reordered
32-entry array, or 32 if no such slot exists. -/
theorem sort_next_recomputed (m : MemoryMap) (h1 : m.entries.length = 32)
    (h2 : m.next_entry_index ≤ 32)
    (h3 : ∀ r ∈ m.entries.drop m.next_entry_index, r.len = 0) :
    m.sort.next_entry_index = (findPos (fun r => r.len == 0) m.sort.entries).getD 32 := by
  rw [sort_entries, sort_def]
  cases hf : findPos (fun r => r.len == 0) (List.insertionSort regionLe m.entries) with
  | some i => rfl
  | none =>
    show m.next_entry_index = (none : Option Nat).getD 32
    have hnz := mem_entries_nonzero_of_findPos_none hf
    have hge : m.entries.length ≤ m.next_entry_index := by
      by_contra hlt
      have hne : m.entries.drop m.next_entry_index ≠ [] := by
        intro heq
        have hl2 := List.length_drop m.next_entry_index m.entries
        rw [heq] at hl2
        simp at hl2
        omega
      obtain ⟨d, hd⟩ := List.exists_mem_of_ne_nil _ hne
      exact hnz d (List.drop_subset _ _ hd) (h3 d hd)
    show m.next_entry_index = 32
    omega

/-- Witness for the amended C2: one appended region, 31 empty slots. -/
theorem sort_next_recomputed_witness :
    ((MemoryMap.mk (MemoryRegion.mk 5 7 MemoryRegionType.Usable ::
        List.replicate 31 MemoryRegion.empty) 1).entries.length = 32 ∧
      (MemoryMap.mk (MemoryRegion.mk 5 7 MemoryRegionType.Usable ::
        List.replicate 31 MemoryRegion.empty) 1).next_entry_index ≤ 32 ∧
      (∀ r ∈ (MemoryMap.mk (MemoryRegion.mk 5 7 MemoryRegionType.Usable ::
          List.replicate 31 MemoryRegion.empty) 1).entries.drop
            (MemoryMap.mk (MemoryRegion.mk 5 7 MemoryRegionType.Usable ::
              List.replicate 31 MemoryRegion.empty) 1).next_entry_index, r.len = 0)) ∧
    (MemoryMap.mk (MemoryRegion.mk 5 7 MemoryRegionType.Usable ::
      List.replicate 31 MemoryRegion.empty) 1).sort.next_entry_index =
      (findPos (fun r => r.len == 0)
        (MemoryMap.mk (MemoryRegion.mk 5 7 MemoryRegionType.Usable ::
          List.replicate 31 MemoryRegion.empty) 1).sort.entries).getD 32 :=
  ⟨⟨by decide, by decide, by decide⟩,
    sort_next_recomputed
      (MemoryMap.mk (MemoryRegion.mk 5 7 MemoryRegionType.Usable ::
        List.replicate 31 MemoryRegion.empty) 1) (by decide) (by decide) (by decide)⟩

/-- C3: appending faults (out-of-bounds, modelled as `none`) exactly when the
catalog is full; on the fault path no state is produced (nothing is dropped
into or overwritten in the array), and when `next_entry_index < 32` the
append succeeds, writing the new region into slot `next_entry_index` so the
view grows by exactly that region. -/
theorem add_region_capacity (m : MemoryMap) (r : MemoryRegion) :
    (m.add_region r = none ↔ 32 ≤ m.next_entry_index) ∧
    (m.next_entry_index < 32 →
      m.add_region r = some (MemoryMap.mk (m.entries.set m.next_entry_index r)
        (m.next_entry_index + 1))) ∧
    (m.entries.length = 32 → ∀ m1 : MemoryMap, m.add_region r = some m1 →
      m1.view = m.view ++ [r] ∧ m1.next_entry_index = m.next_entry_index + 1) := by
  refine ⟨?_, ?_, ?_⟩
  · unfold MemoryMap.add_region
    by_cases hlt : m.next_entry_index < 32
    · rw [if_pos hlt]
      simp
      omega
    · rw [if_neg hlt]
      simp
      omega
  · intro hlt
    exact add_region_some m r hlt
  · intro hlen m1 hadd
    unfold MemoryMap.add_region at hadd
    by_cases hlt : m.next_entry_index < 32
    · rw [if_pos hlt] at hadd
      obtain rfl := Option.some.inj hadd
      constructor
      · show (m.entries.set m.next_entry_index r).take (m.next_entry_index + 1) =
          m.entries.take m.next_entry_index ++ [r]
        exact take_succ_set r m.entries m.next_entry_index (by omega)
      · rfl
    · rw [if_neg hlt] at hadd
      cases hadd

/-- Witness for C3: the 33rd append on a full catalog faults; an append on a
fresh catalog succeeds. -/
theorem add_region_capacity_witness :
    (MemoryMap.mk (List.replicate 32 MemoryRegion.empty) 32).add_region
      (MemoryRegion.mk 0 1 MemoryRegionType.Usable) = none ∧
    MemoryMap.new.add_region (MemoryRegion.mk 0 1 MemoryRegionType.Usable) =
      some (MemoryMap.mk (MemoryMap.new.entries.set 0
        (MemoryRegion.mk 0 1 MemoryRegionType.Usable)) 1) :=
  ⟨(add_region_capacity (MemoryMap.mk (List.replicate 32 MemoryRegion.empty) 32)
      (MemoryRegion.mk 0 1 MemoryRegionType.Usable)).1.mpr (by decide),
    (add_region_capacity MemoryMap.new
      (MemoryRegion.mk 0 1 MemoryRegionType.Usable)).2.1 (by decide)⟩

/-- C4: converting a firmware record whose type code is outside
`{1,2,3,4,5}` aborts (modelled as `Except.error`) with a diagnostic that
includes the offending code, and never yields a region. -/
theorem from_e820_invalid (rec : E820MemoryRegion)
    (h : rec.region_type ∉ ([1, 2, 3, 4, 5] : List Nat)) :
    MemoryRegion.from_e820 rec =
      Except.error ("invalid region type " ++ toString rec.region_type) ∧
    ∀ r : MemoryRegion, ¬ MemoryRegion.from_e820 rec = Except.ok r := by
  obtain ⟨s, l, t, a2⟩ := rec
  revert h
  match t with
  | 0 => intro _; exact ⟨rfl, fun r hr => Except.noConfusion hr⟩
  | 1 => intro h; exact absurd (show (1 : Nat) ∈ ([1, 2, 3, 4, 5] : List Nat) by decide) h
  | 2 => intro h; exact absurd (show (2 : Nat) ∈ ([1, 2, 3, 4, 5] : List Nat) by decide) h
  | 3 => intro h; exact absurd (show (3 : Nat) ∈ ([1, 2, 3, 4, 5] : List Nat) by decide) h
  | 4 => intro h; exact absurd (show (4 : Nat) ∈ ([1, 2, 3, 4, 5] : List Nat) by decide) h
  | 5 => intro h; exact absurd (show (5 : Nat) ∈ ([1, 2, 3, 4, 5] : List Nat) by decide) h
  | (n + 6) => intro _; exact ⟨rfl, fun r hr => Except.noConfusion hr⟩

/-- Witness for C4 at the spec scenario: type code 0. -/
theorem from_e820_invalid_witness :
    ((0 : Nat) ∉ ([1, 2, 3, 4, 5] : List Nat)) ∧
    MemoryRegion.from_e820 (E820MemoryRegion.mk 3 4 0 5) =
      Except.error ("invalid region type " ++ toString (0 : Nat)) :=
  ⟨by decide, (from_e820_invalid (E820MemoryRegion.mk 3 4 0 5) (by decide)).1⟩

/-- C5: conversion succeeds on every record with type code in `{1,2,3,4,5}`,
mapping the code to the matching classification and copying `start_addr`
and `len` verbatim. -/
theorem from_e820_valid (s l a : Nat) :
    MemoryRegion.from_e820 (E820MemoryRegion.mk s l 1 a) =
      Except.ok (MemoryRegion.mk (PhysAddr.new s) l MemoryRegionType.Usable) ∧
    MemoryRegion.from_e820 (E820MemoryRegion.mk s l 2 a) =
      Except.ok (MemoryRegion.mk (PhysAddr.new s) l MemoryRegionType.Reserved) ∧
    MemoryRegion.from_e820 (E820MemoryRegion.mk s l 3 a) =
      Except.ok (MemoryRegion.mk (PhysAddr.new s) l MemoryRegionType.AcpiReclaimable) ∧
    MemoryRegion.from_e820 (E820MemoryRegion.mk s l 4 a) =
      Except.ok (MemoryRegion.mk (PhysAddr.new s) l MemoryRegionType.AcpiNvs) ∧
    MemoryRegion.from_e820 (E820MemoryRegion.mk s l 5 a) =
      Except.ok (MemoryRegion.mk (PhysAddr.new s) l MemoryRegionType.BadMemory) :=
  ⟨rfl, rfl, rfl, rfl, rfl⟩

/-- C7: before normalization, a sequence of at most 32 appends on a fresh
catalog yields a view equal to the appended list itself: same length, same
elements, in insertion order. -/
theorem append_preserves_order (rs : List MemoryRegion) (h : rs.length ≤ 32) :
    ∃ m : MemoryMap, MemoryMap.add_regions MemoryMap.new rs = some m ∧
      m.view = rs ∧ m.view.length = rs.length ∧ m.next_entry_index = rs.length := by
  refine ⟨MemoryMap.mk (rs ++ List.replicate (32 - rs.length) MemoryRegion.empty) rs.length,
    add_regions_new h, ?_, ?_, rfl⟩
  · show (rs ++ List.replicate (32 - rs.length) MemoryRegion.empty).take rs.length = rs
    exact take_append_self rs _
  · show ((rs ++ List.replicate (32 - rs.length) MemoryRegion.empty).take
      rs.length).length = rs.length
    rw [take_append_self rs _]

/-- Witness for C7 at the spec scenario: the single region `(100,10,Usable)`. -/
theorem append_preserves_order_witness :
    ([MemoryRegion.mk 100 10 MemoryRegionType.Usable] : List MemoryRegion).length ≤ 32 ∧
    (∃ m : MemoryMap, MemoryMap.add_regions MemoryMap.new
        [MemoryRegion.mk 100 10 MemoryRegionType.Usable] = some m ∧
      m.view = [MemoryRegion.mk 100 10 MemoryRegionType.Usable] ∧
      m.view.length = ([MemoryRegion.mk 100 10 MemoryRegionType.Usable] :
        List MemoryRegion).length ∧
      m.next_entry_index = ([MemoryRegion.mk 100 10 MemoryRegionType.Usable] :
        List MemoryRegion).length) :=
  ⟨by decide, append_preserves_order [MemoryRegion.mk 100 10 MemoryRegionType.Usable]
    (by decide)⟩

/-- C8: given the §3 invariants, the read view and the mutable view are
total (never fault), both on the given state and after normalization; the
sort itself is a total function of the state. -/
theorem views_total (m : MemoryMap) (hlen : m.entries.length = 32)
    (hn : m.next_entry_index ≤ 32) :
    m.deref = some m.view ∧ m.deref_mut = some m.view ∧
      m.sort.deref = some m.sort.view ∧ m.sort.deref_mut = some m.sort.view := by
  have h1 : m.next_entry_index ≤ m.entries.length := by omega
  have h2 := sort_next_le h1
  exact ⟨deref_eq_view h1, deref_mut_eq_view h1, deref_eq_view h2, deref_mut_eq_view h2⟩

/-- Witness for C8 at the fresh catalog. -/
theorem views_total_witness :
    MemoryMap.new.entries.length = 32 ∧ MemoryMap.new.next_entry_index ≤ 32 ∧
    (MemoryMap.new.deref = some MemoryMap.new.view ∧
      MemoryMap.new.deref_mut = some MemoryMap.new.view ∧
      MemoryMap.new.sort.deref = some MemoryMap.new.sort.view ∧
      MemoryMap.new.sort.deref_mut = some MemoryMap.new.sort.view) :=
  ⟨by decide, by decide, views_total MemoryMap.new (by decide) (by decide)⟩

/-- C9: every state reachable through construction, appends under the
capacity precondition, normalization, and element mutation through the view
satisfies the invariant: at most 32 logical entries, and every slot at or
beyond `next_entry_index` is empty. -/
theorem reachable_inv (m : MemoryMap) (h : Reachable m) :
    m.entries.length = 32 ∧ m.next_entry_index ≤ 32 ∧
      ∀ r ∈ m.entries.drop m.next_entry_index, r.len = 0 := by
  induction h with
  | new => exact inv_new
  | add hr hstep ih => exact inv_add ih hstep
  | sort hr ih => exact inv_sort ih
  | mutate hr hstep ih => exact inv_set ih hstep

/-- Witness for C9 at the freshly constructed catalog. -/
theorem reachable_inv_witness :
    MemoryMap.new.entries.length = 32 ∧ MemoryMap.new.next_entry_index ≤ 32 ∧
      ∀ r ∈ MemoryMap.new.entries.drop MemoryMap.new.next_entry_index, r.len = 0 :=
  reachable_inv MemoryMap.new Reachable.new

/-- C10: normalization only permutes the stored entries: the multiset of the
32 region values is unchanged; no value is lost, duplicated, or modified. -/
theorem sort_permutes_entries (m : MemoryMap) :
    List.Perm m.sort.entries m.entries ∧
      (m.sort.entries : Multiset MemoryRegion) = (m.entries : Multiset MemoryRegion) :=
  ⟨sort_entries_perm m, Multiset.coe_eq_coe.mpr (sort_entries_perm m)⟩

end Bootinfo
